import Mathlib

/-!
Shallow embedding of the search-and-cache engine of the unstructured-P2P
resource-discovery simulator (src/network.py, src/utils/cache.py, the four
strategy modules under src/algorithms/, and the dispatcher in src/main.py),
together with proofs about the specified properties.

Conventions of the embedding:
* Python dicts become association lists (first binding wins, as dict keys
  are unique in the source's construction).
* Python sets become insertion-ordered duplicate-free lists; only membership
  and cardinality of these sets are observable in the source.
* `random.choice(seq)` is mod-indexing into `seq` by the head of an explicit
  stream of naturals, consumed one entry per step; every concrete choice
  sequence corresponds to some stream, so properties quantified over the
  stream cover every run.
* Python's early `return` inside a loop becomes a sum type: `Sum.inl` carries
  the returned record (plus the mutable state at that point), `Sum.inr` the
  state threaded to the next iteration.
-/

namespace P2PSim

/-- Node identifiers are strings (the source uses string node ids). -/
abbrev Node := String

/-- Resource identifiers are strings. -/
abbrev Resource := String

/-- Embedding of the `Network` class of `src/network.py`: the total node
count, the dict `resources` as an association list, and the edge list.  The
adjacency dict `self.graph` is derived from `edges` exactly as in
`Network.__init__` (`graph[a].add(b); graph[b].add(a)`). -/
structure Network where
  num_nodes : Nat
  resources : List (Node × List Resource)
  edges : List (Node × Node)
  deriving Repr, DecidableEq

/-- All endpoints appearing in the edge list, in order. -/
def Network.edgeNodes (net : Network) : List Node :=
  net.edges.foldr (fun e acc => e.1 :: e.2 :: acc) []

/-- Embeds `Network.get_neighbors(node)`: the adjacency set that `__init__` builds
from the edge list, as a duplicate-free list. -/
def Network.getNeighbors (net : Network) (node : Node) : List Node :=
  (net.edges.foldr (fun e acc =>
    (if e.1 = node then [e.2] else []) ++ (if e.2 = node then [e.1] else []) ++ acc) []).dedup

/-- Embeds `Network.has_resource(node, resource)`:
`resource in self.resources.get(node, [])`. -/
def Network.hasResource (net : Network) (node : Node) (resource : Resource) : Bool :=
  decide (resource ∈ ((net.resources.lookup node).getD []))

/-- Embeds `Network.get_all_nodes()`: `set(self.resources.keys())`. -/
def Network.getAllNodes (net : Network) : List Node :=
  net.resources.map Prod.fst

/-- Embedding of the `Cache` class of `src/utils/cache.py`.  The two
dict-of-set fields `cache` / `negative_cache` are flattened to lists of
(node, resource) pairs; the operations below preserve freedom from
duplicates, so membership coincides with the Python sets. -/
structure Cache where
  pos : List (Node × Resource)
  neg : List (Node × Resource)
  deriving Repr, DecidableEq

/-- Embeds `Cache()`: both dicts empty. -/
def Cache.empty : Cache := ⟨[], []⟩

/-- Embeds `Cache.add(node, resource)`: put the pair in the positive set and discard
it from the negative set (`self.negative_cache[node].discard(resource)`). -/
def Cache.add (c : Cache) (node : Node) (resource : Resource) : Cache :=
  { pos := if (node, resource) ∈ c.pos then c.pos else c.pos ++ [(node, resource)]
    neg := c.neg.filter (fun p => decide (p ≠ (node, resource))) }

/-- Embeds `Cache.add_negative(node, resource)`: put the pair in the negative set,
unconditionally — the positive set is neither consulted nor changed. -/
def Cache.add_negative (c : Cache) (node : Node) (resource : Resource) : Cache :=
  { pos := c.pos
    neg := if (node, resource) ∈ c.neg then c.neg else c.neg ++ [(node, resource)] }

/-- Embeds `Cache.has(node, resource)`. -/
def Cache.has (c : Cache) (node : Node) (resource : Resource) : Bool :=
  decide ((node, resource) ∈ c.pos)

/-- Embeds `Cache.has_negative(node, resource)`. -/
def Cache.has_negative (c : Cache) (node : Node) (resource : Resource) : Bool :=
  decide ((node, resource) ∈ c.neg)

/-- Embeds `Cache.update_from_network(network)`: `add` every (node, resource) pair
of the network's ground truth. -/
def Cache.update_from_network (c : Cache) (net : Network) : Cache :=
  net.resources.foldl (fun c1 p => p.2.foldl (fun c2 r => c2.add p.1 r) c1) c

/-- The result dict returned by every strategy.  `all_visited` is `none`
when the Python dict lacks the `"all_visited"` key. -/
structure SearchResult where
  found : Bool
  messages : Nat
  nodes_visited : Nat
  path : List Node
  all_visited : Option (List Node)
  deriving Repr, DecidableEq

/-- The result `{"found": False, "messages": 0, "nodes_visited": 0,
"path": []}` that every strategy returns for a start node outside the
network. -/
def invalidStartResult : SearchResult :=
  { found := false, messages := 0, nodes_visited := 0, path := [], all_visited := none }

/-- The result `{"found": True, "messages": 0, "nodes_visited": 1,
"path": [start]}` that every strategy returns when the start node is deemed
to hold the resource. -/
def startHasResult (start : Node) : SearchResult :=
  { found := true, messages := 0, nodes_visited := 1, path := [start], all_visited := none }

/-- The list comprehension shared by `informed_flooding.py` and
`informed_random_walk.py`: keep a neighbor `n` exactly when
`cache.has(n, resource) or not cache.has_negative(n, resource)`. -/
def cacheCandidates (c : Cache) (resource : Resource) (neighbors : List Node) : List Node :=
  neighbors.filter (fun n => c.has n resource || !(c.has_negative n resource))

/-- The mutable state of the two flooding loops: the cache (written only by
the informed variant), the `visited` set as an insertion-ordered
duplicate-free list, and the two counters.  The network object is a fixed
parameter of the loops: no strategy in the source ever writes to it. -/
structure FState where
  cache : Cache
  visited : List Node
  messages : Nat
  nodes_visited : Nat
  deriving Repr, DecidableEq

/-- A frontier entry `(node, depth, path)` as enqueued by both flooding
loops. -/
abbrev Entry := Node × Nat × List Node

/-- One pass of the `for neighbor in …` body shared by `flooding.py`
(`informed = false`) and `informed_flooding.py` (`informed = true`), over
the (already filtered, for the informed variant) neighbor list.
`Sum.inl` is the early `return` when the resource is found, paired with the
mutable state at that point; `Sum.inr` carries the state for the next loop
iteration plus the entries appended to the queue.  The per-neighbor source
guard `if depth + 1 < ttl: queue.append(…)` does not depend on the neighbor,
so the caller applies it to the returned entry list as a whole. -/
def processNeighbors (informed : Bool) (net : Network) (resource : Resource) (depth : Nat)
    (path : List Node) : List Node → FState → (SearchResult × FState) ⊕ (FState × List Entry)
  | [], st => Sum.inr (st, [])
  | n :: rest, st =>
    let st1 : FState := { st with messages := st.messages + 1 }
    if n ∈ st1.visited then
      processNeighbors informed net resource depth path rest st1
    else
      let st2 : FState := { st1 with
        visited := st1.visited ++ [n]
        nodes_visited := st1.nodes_visited + 1 }
      let newPath := path ++ [n]
      if net.hasResource n resource then
        let st3 : FState := if informed then { st2 with cache := st2.cache.add n resource } else st2
        Sum.inl ({ found := true, messages := st3.messages, nodes_visited := st3.nodes_visited,
                   path := newPath,
                   all_visited := if informed then none else some st3.visited }, st3)
      else
        let st3 : FState :=
          if informed then { st2 with cache := st2.cache.add_negative n resource } else st2
        match processNeighbors informed net resource depth path rest st3 with
        | Sum.inl r => Sum.inl r
        | Sum.inr (st4, es) => Sum.inr (st4, (n, depth + 1, newPath) :: es)

/-- Every node that a flooding traversal can ever visit: the resource-map
keys together with the edge endpoints.  Used as the termination measure's
finite pool. -/
def nodePool (net : Network) : List Node :=
  (net.getAllNodes ++ net.edgeNodes).dedup

/-- Number of pool members not yet visited. -/
def unvisitedCount (pl visited : List Node) : Nat :=
  (pl.filter (fun n => decide (n ∉ visited))).length

theorem filter_sublist_filter {α : Type} {p q : α → Bool} (l : List α)
    (h : ∀ a, p a = true → q a = true) : List.Sublist (l.filter p) (l.filter q) := by
  induction l with
  | nil => simp
  | cons a t ih =>
    by_cases hp : p a = true
    · simp only [List.filter_cons, hp, h a hp, cond_true]
      exact List.Sublist.cons₂ a ih
    · simp only [List.filter_cons]
      rw [Bool.not_eq_true] at hp
      simp only [hp]
      by_cases hq : q a = true
      · simp only [hq, cond_true, cond_false]
        exact ih.cons a
      · rw [Bool.not_eq_true] at hq
        simp only [hq, cond_false]
        exact ih

theorem unvisitedCount_mono (pl v v' : List Node) (h : ∀ x ∈ v, x ∈ v') :
    unvisitedCount pl v' ≤ unvisitedCount pl v := by
  apply List.Sublist.length_le
  apply filter_sublist_filter
  intro a ha
  simp only [decide_eq_true_eq] at ha ⊢
  intro hmem
  exact ha (h a hmem)

theorem unvisitedCount_lt (pl v : List Node) (x : Node)
    (hx : x ∈ pl) (hnx : x ∉ v) :
    unvisitedCount pl (v ++ [x]) < unvisitedCount pl v := by
  have hsub : List.Sublist (pl.filter (fun n => decide (n ∉ (v ++ [x]))))
      (pl.filter (fun n => decide (n ∉ v))) := by
    apply filter_sublist_filter
    intro a ha
    simp only [decide_eq_true_eq, List.mem_append, List.mem_singleton] at ha ⊢
    intro hmem
    exact ha (Or.inl hmem)
  have hle := hsub.length_le
  rcases Nat.lt_or_ge (unvisitedCount pl (v ++ [x])) (unvisitedCount pl v) with hlt | hge
  · exact hlt
  · exfalso
    have heq : pl.filter (fun n => decide (n ∉ (v ++ [x]))) =
        pl.filter (fun n => decide (n ∉ v)) :=
      hsub.eq_of_length (Nat.le_antisymm hle hge)
    have hxin : x ∈ pl.filter (fun n => decide (n ∉ v)) := by
      simp only [List.mem_filter, decide_eq_true_eq]
      exact ⟨hx, hnx⟩
    rw [← heq, List.mem_filter] at hxin
    simp at hxin

/-- The `visited` field of the state after the cache-write `if` is that of
the underlying state. -/
theorem FState_iteCache_visited (b : Bool) (st : FState) (c : Cache) :
    (if b then { st with cache := c } else st).visited = st.visited := by
  cases b <;> rfl

/-- The measure fact behind termination of the flooding loops: when the
neighbor pass does not return early, twice the unvisited-pool count plus the
number of emitted queue entries strictly shrinks (each emitted entry is a
newly visited pool member). -/
theorem processNeighbors_inr_measure (informed : Bool) (net : Network) (resource : Resource)
    (depth : Nat) (path : List Node) (pl : List Node) :
    ∀ cands st st' es, (∀ n ∈ cands, n ∈ pl) →
      processNeighbors informed net resource depth path cands st = Sum.inr (st', es) →
      2 * unvisitedCount pl st'.visited + es.length ≤ 2 * unvisitedCount pl st.visited := by
  intro cands
  induction cands with
  | nil =>
    intro st st' es _ heq
    simp only [processNeighbors, Sum.inr.injEq, Prod.mk.injEq] at heq
    obtain ⟨h1, h2⟩ := heq
    subst h1; subst h2
    simp
  | cons n rest ih =>
    intro st st' es hsub heq
    simp only [processNeighbors] at heq
    split at heq
    · have h := ih _ st' es (fun m hm => hsub m (List.mem_cons_of_mem n hm)) heq
      simpa using h
    · rename_i hnv
      split at heq
      · simp at heq
      · have hlt : unvisitedCount pl (st.visited ++ [n]) < unvisitedCount pl st.visited :=
          unvisitedCount_lt pl st.visited n (hsub n (List.mem_cons_self n rest))
            (by simpa using hnv)
        split at heq
        · simp at heq
        · rename_i st4 es' hrec
          simp only [Sum.inr.injEq, Prod.mk.injEq] at heq
          obtain ⟨h1, h2⟩ := heq
          subst h1; subst h2
          have h := ih _ st4 es' (fun m hm => hsub m (List.mem_cons_of_mem n hm)) hrec
          simp only [List.length_cons]
          cases informed <;> simp at h <;> omega

/-- Elements produced by the adjacency fold are edge endpoints. -/
theorem mem_adjFold {edges : List (Node × Node)} {v x : Node}
    (hx : x ∈ edges.foldr (fun e acc =>
      (if e.1 = v then [e.2] else []) ++ (if e.2 = v then [e.1] else []) ++ acc) []) :
    x ∈ edges.foldr (fun e acc => e.1 :: e.2 :: acc) [] := by
  induction edges with
  | nil => simp at hx
  | cons e t ih =>
    simp only [List.foldr_cons] at hx ⊢
    rw [List.mem_append, List.mem_append] at hx
    rcases hx with (h1 | h2) | h3
    · split at h1 <;> simp_all
    · split at h2 <;> simp_all
    · simp [ih h3]

/-- Neighbors are members of the node pool. -/
theorem getNeighbors_subset_pool (net : Network) (v : Node) :
    ∀ x ∈ net.getNeighbors v, x ∈ nodePool net := by
  intro x hx
  unfold Network.getNeighbors at hx
  rw [List.mem_dedup] at hx
  unfold nodePool
  rw [List.mem_dedup, List.mem_append]
  exact Or.inr (mem_adjFold hx)

/-- The queue loop `while queue:` shared by `flooding.py`
(`informed = false`) and `informed_flooding.py` (`informed = true`).
Dequeue from the front; skip expansion when `depth >= ttl`; otherwise run
the neighbor pass over the (cache-filtered, for the informed variant)
neighbor list, either propagating its early `return` or appending the new
entries (kept only when `depth + 1 < ttl`, the source's per-neighbor guard)
to the back of the queue.  An empty queue returns the not-found record —
with the full visited set as `path`, and (only in the uninformed file) also
as `all_visited`.  The loop is driven by an explicit `fuel` so that it is
structurally recursive (kernel-computable); the top-level entry points
supply `floodFuel`, which `floodFuel_suffices` (together with
`processNeighbors_inr_measure`) shows is never exhausted: twice the
unvisited-pool count plus the queue length drops on every iteration. -/
def floodLoop (informed : Bool) (net : Network) (resource : Resource) (ttl : Nat) :
    Nat → FState → List Entry → SearchResult × FState
  | _, st, [] =>
    ({ found := false, messages := st.messages, nodes_visited := st.nodes_visited,
       path := st.visited,
       all_visited := if informed then none else some st.visited }, st)
  | 0, st, _ =>
    ({ found := false, messages := st.messages, nodes_visited := st.nodes_visited,
       path := st.visited,
       all_visited := if informed then none else some st.visited }, st)
  | fuel + 1, st, (cur, depth, path) :: rest =>
    if depth ≥ ttl then
      floodLoop informed net resource ttl fuel st rest
    else
      match processNeighbors informed net resource depth path
          (if informed then cacheCandidates st.cache resource (net.getNeighbors cur)
           else net.getNeighbors cur) st with
      | Sum.inl (r, st') => (r, st')
      | Sum.inr (st', es) =>
        floodLoop informed net resource ttl fuel st'
          (rest ++ if depth + 1 < ttl then es else [])

/-- Fuel that the flooding entry points pass to `floodLoop`: an upper bound
on the loop's decreasing measure, so the fuel-exhausted branch is never
taken. -/
def floodFuel (net : Network) : Nat :=
  2 * (nodePool net).length + 2

/-- Embeds `flooding(network, start_node, resource, ttl)` of
`src/algorithms/flooding.py`.  The function performs no write to the network
object; the unchanged network is returned alongside the result so that the
frame property is part of the contract. -/
def flooding (net : Network) (start : Node) (resource : Resource) (ttl : Nat) :
    SearchResult × Network :=
  if start ∉ net.getAllNodes then (invalidStartResult, net)
  else if net.hasResource start resource then (startHasResult start, net)
  else
    let st0 : FState := { cache := Cache.empty, visited := [start], messages := 0
                          nodes_visited := 1 }
    ((floodLoop false net resource ttl (floodFuel net) st0 [(start, 0, [start])]).1, net)

/-- Embeds `informed_flooding(network, start_node, resource, ttl, cache)` of
`src/algorithms/informed_flooding.py`.  `none` for the cache argument is
Python's `cache=None` default, replaced by a fresh cache seeded from the
network.  Returns the result together with the (unchanged) network and the
final cache. -/
def informed_flooding (net : Network) (start : Node) (resource : Resource) (ttl : Nat)
    (cacheArg : Option Cache) : SearchResult × Network × Cache :=
  let cache := match cacheArg with
    | none => Cache.update_from_network Cache.empty net
    | some c => c
  if start ∉ net.getAllNodes then (invalidStartResult, net, cache)
  else if cache.has start resource then (startHasResult start, net, cache)
  else if net.hasResource start resource then (startHasResult start, net, cache.add start resource)
  else
    let st0 : FState := { cache := cache, visited := [start], messages := 0
                          nodes_visited := 1 }
    let out := floodLoop true net resource ttl (floodFuel net) st0 [(start, 0, [start])]
    (out.1, net, out.2.cache)

/-- The `while steps < ttl` loop of `src/algorithms/random_walk.py`.
`rand` is the stream of random draws; `random.choice(neighbors)` is
`neighbors[rand_head % len(neighbors)]`, and one stream entry is consumed
per step. -/
def walkLoop (net : Network) (resource : Resource) (ttl : Nat) :
    List Nat → Node → List Node → List Node → Nat → Nat → SearchResult
  | rand, current, path, visited, messages, steps =>
    if steps < ttl then
      let neighbors := net.getNeighbors current
      if neighbors.isEmpty then
        { found := false, messages := messages, nodes_visited := visited.length,
          path := path, all_visited := none }
      else
        let next := neighbors.getD (rand.headD 0 % neighbors.length) current
        let visited1 := if next ∈ visited then visited else visited ++ [next]
        if net.hasResource next resource then
          { found := true, messages := messages + 1, nodes_visited := visited1.length,
            path := path ++ [next], all_visited := none }
        else
          walkLoop net resource ttl rand.tail next (path ++ [next]) visited1
            (messages + 1) (steps + 1)
    else
      { found := false, messages := messages, nodes_visited := visited.length,
        path := path, all_visited := none }
termination_by rand current path visited messages steps => ttl - steps
decreasing_by omega

/-- Embeds `random_walk(network, start_node, resource, ttl)` of
`src/algorithms/random_walk.py`, with the unchanged network returned
alongside the result. -/
def random_walk (net : Network) (start : Node) (resource : Resource) (ttl : Nat)
    (rand : List Nat) : SearchResult × Network :=
  if start ∉ net.getAllNodes then (invalidStartResult, net)
  else if net.hasResource start resource then (startHasResult start, net)
  else (walkLoop net resource ttl rand start [start] [start] 0 0, net)

/-- The `while steps < ttl` loop of `src/algorithms/informed_random_walk.py`:
like `walkLoop`, but the candidate set is the cache-filtered neighbor list
(falling back to the full neighbor list when the filter empties it), and
every arrival is recorded in the cache — positively when the node holds the
resource, negatively otherwise. -/
def iwalkLoop (net : Network) (resource : Resource) (ttl : Nat) :
    List Nat → Node → List Node → List Node → Nat → Nat → Cache → SearchResult × Cache
  | rand, current, path, visited, messages, steps, cache =>
    if steps < ttl then
      let neighbors := net.getNeighbors current
      if neighbors.isEmpty then
        ({ found := false, messages := messages, nodes_visited := visited.length,
           path := path, all_visited := none }, cache)
      else
        let cands0 := cacheCandidates cache resource neighbors
        let cands := if cands0.isEmpty then neighbors else cands0
        let next := cands.getD (rand.headD 0 % cands.length) current
        let visited1 := if next ∈ visited then visited else visited ++ [next]
        if net.hasResource next resource then
          ({ found := true, messages := messages + 1, nodes_visited := visited1.length,
             path := path ++ [next], all_visited := none }, cache.add next resource)
        else
          iwalkLoop net resource ttl rand.tail next (path ++ [next]) visited1
            (messages + 1) (steps + 1) (cache.add_negative next resource)
    else
      ({ found := false, messages := messages, nodes_visited := visited.length,
         path := path, all_visited := none }, cache)
termination_by rand current path visited messages steps cache => ttl - steps
decreasing_by omega

/-- Embeds `informed_random_walk(network, start_node, resource, ttl, cache)` of
`src/algorithms/informed_random_walk.py`, with the unchanged network and
the final cache returned alongside the result. -/
def informed_random_walk (net : Network) (start : Node) (resource : Resource) (ttl : Nat)
    (rand : List Nat) (cacheArg : Option Cache) : SearchResult × Network × Cache :=
  let cache := match cacheArg with
    | none => Cache.update_from_network Cache.empty net
    | some c => c
  if start ∉ net.getAllNodes then (invalidStartResult, net, cache)
  else if cache.has start resource then (startHasResult start, net, cache)
  else if net.hasResource start resource then (startHasResult start, net, cache.add start resource)
  else
    let out := iwalkLoop net resource ttl rand start [start] [start] 0 0 cache
    (out.1, net, out.2)

/-- Embeds `run_search` of `src/main.py`: dispatch on the exact strategy name; for
the informed strategies a fresh cache is seeded from the network first; an
unrecognized name raises `ValueError("Algoritmo desconhecido: …")`, embedded
as `Except.error`. -/
def run_search (net : Network) (algorithm : String) (start : Node) (resource : Resource)
    (ttl : Nat) (rand : List Nat) : Except String SearchResult :=
  if algorithm = "flooding" then
    Except.ok (flooding net start resource ttl).1
  else if algorithm = "informed_flooding" then
    let cache := Cache.update_from_network Cache.empty net
    Except.ok (informed_flooding net start resource ttl (some cache)).1
  else if algorithm = "random_walk" then
    Except.ok (random_walk net start resource ttl rand).1
  else if algorithm = "informed_random_walk" then
    let cache := Cache.update_from_network Cache.empty net
    Except.ok (informed_random_walk net start resource ttl rand (some cache)).1
  else
    Except.error ("Algoritmo desconhecido: " ++ algorithm)

/-- The structural facts that the external validator
(`src/utils/validators.py`) guarantees for a network it accepts and that the
claims rely on: the resource dict's keys are distinct (a Python dict
invariant), `num_nodes` equals the dict size, and every edge endpoint is a
known node. -/
def Network.validated (net : Network) : Prop :=
  net.getAllNodes.Nodup ∧
  net.num_nodes = net.resources.length ∧
  ∀ e ∈ net.edges, e.1 ∈ net.getAllNodes ∧ e.2 ∈ net.getAllNodes

instance (net : Network) : Decidable net.validated := by
  unfold Network.validated
  infer_instance

/-- A 1-resource, 2-node example network used by witnesses. -/
def net1 : Network :=
  { num_nodes := 2, resources := [("A", ["x"]), ("B", [])], edges := [("A", "B")] }

/-- The 4-node ring of spec section 8: A—B—C—D—A, resources A:[x], C:[y]. -/
def ring4 : Network :=
  { num_nodes := 4
    resources := [("A", ["x"]), ("B", []), ("C", ["y"]), ("D", [])]
    edges := [("A", "B"), ("B", "C"), ("C", "D"), ("D", "A")] }

/-- C2 counterexample: `add "A" "x"` followed by `add_negative "A" "x"`
leaves the pair recorded in both the positive and the negative set, and the
cache is changed, so `add_negative` on a pair already positive is not a
no-op and the claimed mutual exclusion fails. -/
theorem C2_counterexample :
    ((Cache.empty.add "A" "x").add_negative "A" "x").has "A" "x" = true ∧
    ((Cache.empty.add "A" "x").add_negative "A" "x").has_negative "A" "x" = true ∧
    (Cache.empty.add "A" "x").add_negative "A" "x" ≠ Cache.empty.add "A" "x" := by
  decide

/-- C2 amended: `add_negative` always inserts the pair into the negative set
and never touches the positive set — so a pair recorded positive and then
negative is in both sets simultaneously; in the other direction `add`
records the pair positive and removes any negative record for that pair. -/
theorem C2_amended (c : Cache) (n : Node) (r : Resource) :
    ((c.add_negative n r).pos = c.pos ∧ (c.add_negative n r).has_negative n r = true) ∧
    ((c.add n r).has n r = true ∧ (c.add n r).has_negative n r = false) := by
  refine ⟨⟨rfl, ?_⟩, ?_, ?_⟩
  · simp only [Cache.has_negative, Cache.add_negative]
    split
    · rename_i h
      simp [h]
    · simp
  · simp only [Cache.has, Cache.add]
    split
    · rename_i h
      simp [h]
    · simp
  · simp only [Cache.has_negative, Cache.add]
    simp [List.mem_filter]

/-- C5: when the start node is in the network and holds the target resource,
every strategy returns `found=true, messages=0, nodes_visited=1,
path=[start]`, for every ttl, every cache argument and every random
stream. -/
theorem C5_start_holds (net : Network) (start : Node) (resource : Resource) (ttl : Nat)
    (rand : List Nat) (cacheArg : Option Cache)
    (hmem : start ∈ net.getAllNodes) (hres : net.hasResource start resource = true) :
    (flooding net start resource ttl).1 = startHasResult start ∧
    (informed_flooding net start resource ttl cacheArg).1 = startHasResult start ∧
    (random_walk net start resource ttl rand).1 = startHasResult start ∧
    (informed_random_walk net start resource ttl rand cacheArg).1 = startHasResult start := by
  refine ⟨?_, ?_, ?_, ?_⟩
  · simp [flooding, hmem, hres]
  · simp only [informed_flooding, hmem, not_true_eq_false, if_false, reduceIte, hres]
    split <;> simp [hmem, hres]
  · simp [random_walk, hmem, hres]
  · simp only [informed_random_walk, hmem, not_true_eq_false, if_false, reduceIte, hres]
    split <;> simp [hmem, hres]

/-- C5 witness at a concrete network. -/
theorem C5_start_holds_witness :
    "A" ∈ net1.getAllNodes ∧ net1.hasResource "A" "x" = true ∧
    (flooding net1 "A" "x" 3).1 = startHasResult "A" ∧
    (informed_flooding net1 "A" "x" 3 (some Cache.empty)).1 = startHasResult "A" ∧
    (random_walk net1 "A" "x" 3 [0, 1]).1 = startHasResult "A" ∧
    (informed_random_walk net1 "A" "x" 3 [0, 1] (some Cache.empty)).1 = startHasResult "A" := by
  have h := C5_start_holds net1 "A" "x" 3 [0, 1] (some Cache.empty) (by decide) (by decide)
  exact ⟨by decide, by decide, h.1, h.2.1, h.2.2.1, h.2.2.2⟩

/-- C10: both informed strategies trust the supplied cache's positive belief
at the start node over ground truth: a positive cache record for
(start, resource) short-circuits to the found record, with no reference to
whether the start node truly holds the resource. -/
theorem C10_cache_trusted (net : Network) (start : Node) (resource : Resource) (ttl : Nat)
    (rand : List Nat) (c : Cache)
    (hmem : start ∈ net.getAllNodes) (hc : c.has start resource = true) :
    (informed_flooding net start resource ttl (some c)).1 = startHasResult start ∧
    (informed_random_walk net start resource ttl rand (some c)).1 = startHasResult start := by
  constructor
  · simp [informed_flooding, hmem, hc]
  · simp [informed_random_walk, hmem, hc]

/-- A network in which node A does not hold resource x. -/
def netNoX : Network :=
  { num_nodes := 2, resources := [("A", ["y"]), ("B", [])], edges := [("A", "B")] }

/-- C10 witness: the cache believes A holds x, the network says otherwise,
and both informed strategies still report immediate success. -/
theorem C10_cache_trusted_witness :
    "A" ∈ netNoX.getAllNodes ∧ (Cache.mk [("A", "x")] []).has "A" "x" = true ∧
    netNoX.hasResource "A" "x" = false ∧
    (informed_flooding netNoX "A" "x" 5 (some (Cache.mk [("A", "x")] []))).1 =
      startHasResult "A" ∧
    (informed_random_walk netNoX "A" "x" 5 [2] (some (Cache.mk [("A", "x")] []))).1 =
      startHasResult "A" := by
  have h := C10_cache_trusted netNoX "A" "x" 5 [2] (Cache.mk [("A", "x")] [])
    (by decide) (by decide)
  exact ⟨by decide, by decide, by decide, h.1, h.2⟩

/-- C9: `run_search` returns each recognized strategy identifier's own
result as `Except.ok`, and errors with the unknown-strategy message exactly
on every other identifier. -/
theorem C9_dispatch (net : Network) (alg : String) (start : Node) (resource : Resource)
    (ttl : Nat) (rand : List Nat) :
    (run_search net "flooding" start resource ttl rand =
      Except.ok (flooding net start resource ttl).1) ∧
    (run_search net "informed_flooding" start resource ttl rand =
      Except.ok (informed_flooding net start resource ttl
        (some (Cache.update_from_network Cache.empty net))).1) ∧
    (run_search net "random_walk" start resource ttl rand =
      Except.ok (random_walk net start resource ttl rand).1) ∧
    (run_search net "informed_random_walk" start resource ttl rand =
      Except.ok (informed_random_walk net start resource ttl rand
        (some (Cache.update_from_network Cache.empty net))).1) ∧
    (alg ≠ "flooding" → alg ≠ "informed_flooding" → alg ≠ "random_walk" →
      alg ≠ "informed_random_walk" →
      run_search net alg start resource ttl rand =
        Except.error ("Algoritmo desconhecido: " ++ alg)) := by
  refine ⟨by simp [run_search], by simp [run_search], by simp [run_search],
    by simp [run_search], ?_⟩
  intro h1 h2 h3 h4
  simp [run_search, h1, h2, h3, h4]

/-- C9 witness at concrete inputs, with the unrecognized identifier "bfs". -/
theorem C9_dispatch_witness :
    (run_search net1 "flooding" "A" "x" 3 [] =
      Except.ok (flooding net1 "A" "x" 3).1) ∧
    (run_search net1 "informed_flooding" "A" "x" 3 [] =
      Except.ok (informed_flooding net1 "A" "x" 3
        (some (Cache.update_from_network Cache.empty net1))).1) ∧
    (run_search net1 "random_walk" "A" "x" 3 [] =
      Except.ok (random_walk net1 "A" "x" 3 []).1) ∧
    (run_search net1 "informed_random_walk" "A" "x" 3 [] =
      Except.ok (informed_random_walk net1 "A" "x" 3 []
        (some (Cache.update_from_network Cache.empty net1))).1) ∧
    (run_search net1 "bfs" "A" "x" 3 [] =
      Except.error ("Algoritmo desconhecido: " ++ "bfs")) := by
  have h := C9_dispatch net1 "bfs" "A" "x" 3 []
  exact ⟨h.1, h.2.1, h.2.2.1, h.2.2.2.1,
    h.2.2.2.2 (by decide) (by decide) (by decide) (by decide)⟩

/-- C8: no strategy mutates the network object — the network component each
strategy returns is the very network it was given, so node set, adjacency
and per-node resources are unchanged. -/
theorem C8_no_mutation (net : Network) (start : Node) (resource : Resource) (ttl : Nat)
    (rand : List Nat) (cacheArg : Option Cache) :
    (flooding net start resource ttl).2 = net ∧
    (informed_flooding net start resource ttl cacheArg).2.1 = net ∧
    (random_walk net start resource ttl rand).2 = net ∧
    (informed_random_walk net start resource ttl rand cacheArg).2.1 = net := by
  refine ⟨?_, ?_, ?_, ?_⟩ <;>
    simp only [flooding, informed_flooding, random_walk, informed_random_walk] <;>
    repeat' split
  all_goals rfl

/-- Invariant of the uninformed random-walk loop: one message per step, one
path entry per message, and messages never exceed the ttl. -/
theorem walkLoop_invariant (net : Network) (resource : Resource) (ttl : Nat) :
    ∀ fuel (rand : List Nat) (current : Node) (path visited : List Node)
      (messages steps : Nat),
      ttl - steps ≤ fuel → path.length = messages + 1 → messages = steps → steps ≤ ttl →
      (walkLoop net resource ttl rand current path visited messages steps).path.length =
        (walkLoop net resource ttl rand current path visited messages steps).messages + 1 ∧
      (walkLoop net resource ttl rand current path visited messages steps).messages ≤ ttl := by
  intro fuel
  induction fuel with
  | zero =>
    intro rand current path visited messages steps hf hp hm hs
    have hge : ¬ steps < ttl := by omega
    rw [walkLoop]
    simp only [hge, if_false, reduceIte]
    exact ⟨hp, by omega⟩
  | succ fuel ih =>
    intro rand current path visited messages steps hf hp hm hs
    rw [walkLoop]
    dsimp only
    split
    · split
      · exact ⟨hp, by dsimp only; omega⟩
      · split
        · refine ⟨by dsimp only; simp [hp], by dsimp only; omega⟩
        · apply ih
          · omega
          · simp [hp]
          · omega
          · omega
    · exact ⟨hp, by dsimp only; omega⟩

/-- Invariant of the informed random-walk loop: one message per step, one
path entry per message, and messages never exceed the ttl. -/
theorem iwalkLoop_invariant (net : Network) (resource : Resource) (ttl : Nat) :
    ∀ fuel (rand : List Nat) (current : Node) (path visited : List Node)
      (messages steps : Nat) (cache : Cache),
      ttl - steps ≤ fuel → path.length = messages + 1 → messages = steps → steps ≤ ttl →
      (iwalkLoop net resource ttl rand current path visited messages steps cache).1.path.length =
        (iwalkLoop net resource ttl rand current path visited messages steps cache).1.messages
          + 1 ∧
      (iwalkLoop net resource ttl rand current path visited messages steps cache).1.messages
        ≤ ttl := by
  intro fuel
  induction fuel with
  | zero =>
    intro rand current path visited messages steps cache hf hp hm hs
    have hge : ¬ steps < ttl := by omega
    rw [iwalkLoop]
    simp only [hge, if_false, reduceIte]
    exact ⟨hp, by omega⟩
  | succ fuel ih =>
    intro rand current path visited messages steps cache hf hp hm hs
    rw [iwalkLoop]
    dsimp only
    split
    · split
      · exact ⟨hp, by dsimp only; omega⟩
      · split
        · split
          · refine ⟨by dsimp only; simp [hp], by dsimp only; omega⟩
          · apply ih
            · omega
            · simp [hp]
            · omega
            · omega
        · split
          · refine ⟨by dsimp only; simp [hp], by dsimp only; omega⟩
          · apply ih
            · omega
            · simp [hp]
            · omega
            · omega
    · exact ⟨hp, by dsimp only; omega⟩

/-- C3 as stated is false for a start node outside the network: both walks
return `path = []` and `messages = 0`, so `len(path) - 1 = -1 ≠ 0`. -/
theorem C3_counterexample :
    ¬ ((((random_walk net1 "Q" "x" 5 []).1.path.length : Int) - 1 =
          (random_walk net1 "Q" "x" 5 []).1.messages ∧
        (random_walk net1 "Q" "x" 5 []).1.messages ≤ 5) ∧
       (((informed_random_walk net1 "Q" "x" 5 [] (some Cache.empty)).1.path.length : Int) - 1 =
          (informed_random_walk net1 "Q" "x" 5 [] (some Cache.empty)).1.messages ∧
        (informed_random_walk net1 "Q" "x" 5 [] (some Cache.empty)).1.messages ≤ 5)) := by
  decide

/-- C3 amended: restricted to start nodes that are members of the network,
both walks always return one message per step taken (`len(path) - 1 ==
messages`) and never more than ttl messages, for every random stream and
(for the informed walk) every cache. -/
theorem C3_amended (net : Network) (start : Node) (resource : Resource) (ttl : Nat)
    (rand : List Nat) (cacheArg : Option Cache) (hmem : start ∈ net.getAllNodes) :
    (((random_walk net start resource ttl rand).1.path.length : Int) - 1 =
        (random_walk net start resource ttl rand).1.messages ∧
      (random_walk net start resource ttl rand).1.messages ≤ ttl) ∧
    (((informed_random_walk net start resource ttl rand cacheArg).1.path.length : Int) - 1 =
        (informed_random_walk net start resource ttl rand cacheArg).1.messages ∧
      (informed_random_walk net start resource ttl rand cacheArg).1.messages ≤ ttl) := by
  constructor
  · have key : (random_walk net start resource ttl rand).1.path.length =
        (random_walk net start resource ttl rand).1.messages + 1 ∧
        (random_walk net start resource ttl rand).1.messages ≤ ttl := by
      unfold random_walk
      simp only [hmem, not_true_eq_false, if_false, reduceIte]
      split
      · exact ⟨rfl, Nat.zero_le ttl⟩
      · exact walkLoop_invariant net resource ttl ttl rand start [start] [start] 0 0
          (by omega) (by simp) rfl (by omega)
    refine ⟨?_, key.2⟩
    rw [key.1]
    push_cast
    ring
  · have key : (informed_random_walk net start resource ttl rand cacheArg).1.path.length =
        (informed_random_walk net start resource ttl rand cacheArg).1.messages + 1 ∧
        (informed_random_walk net start resource ttl rand cacheArg).1.messages ≤ ttl := by
      unfold informed_random_walk
      simp only [hmem, not_true_eq_false, if_false, reduceIte]
      split
      · exact ⟨rfl, Nat.zero_le ttl⟩
      · split
        · exact ⟨rfl, Nat.zero_le ttl⟩
        · exact iwalkLoop_invariant net resource ttl ttl rand start [start] [start] 0 0 _
            (by omega) (by simp) rfl (by omega)
    refine ⟨?_, key.2⟩
    rw [key.1]
    push_cast
    ring

/-- C3 amended, witnessed at a concrete in-network start node. -/
theorem C3_amended_witness :
    (((random_walk ring4 "B" "y" 3 [1, 0, 1]).1.path.length : Int) - 1 =
        (random_walk ring4 "B" "y" 3 [1, 0, 1]).1.messages ∧
      (random_walk ring4 "B" "y" 3 [1, 0, 1]).1.messages ≤ 3) ∧
    (((informed_random_walk ring4 "B" "y" 3 [1, 0, 1] (some Cache.empty)).1.path.length : Int)
          - 1 =
        (informed_random_walk ring4 "B" "y" 3 [1, 0, 1] (some Cache.empty)).1.messages ∧
      (informed_random_walk ring4 "B" "y" 3 [1, 0, 1] (some Cache.empty)).1.messages ≤ 3) :=
  C3_amended ring4 "B" "y" 3 [1, 0, 1] (some Cache.empty) (by decide)

/-- Soundness of a cache w.r.t. the network's ground truth: every positive
record is true and every negative record is truly absent. -/
def CacheSound (net : Network) (c : Cache) : Prop :=
  (∀ p ∈ c.pos, net.hasResource p.1 p.2 = true) ∧
  (∀ p ∈ c.neg, net.hasResource p.1 p.2 = false)

theorem cacheSound_empty (net : Network) : CacheSound net Cache.empty := by
  constructor <;> intro p hp <;> simp [Cache.empty] at hp

theorem cacheSound_add (net : Network) (c : Cache) (n : Node) (r : Resource)
    (hc : CacheSound net c) (h : net.hasResource n r = true) :
    CacheSound net (c.add n r) := by
  obtain ⟨hpos, hneg⟩ := hc
  constructor
  · intro p hp
    simp only [Cache.add] at hp
    split at hp
    · exact hpos p hp
    · rcases List.mem_append.mp hp with h1 | h2
      · exact hpos p h1
      · simp only [List.mem_singleton] at h2
        subst h2
        exact h
  · intro p hp
    simp only [Cache.add] at hp
    exact hneg p (List.mem_of_mem_filter hp)

theorem cacheSound_add_negative (net : Network) (c : Cache) (n : Node) (r : Resource)
    (hc : CacheSound net c) (h : net.hasResource n r = false) :
    CacheSound net (c.add_negative n r) := by
  obtain ⟨hpos, hneg⟩ := hc
  constructor
  · intro p hp
    exact hpos p hp
  · intro p hp
    simp only [Cache.add_negative] at hp
    split at hp
    · exact hneg p hp
    · rcases List.mem_append.mp hp with h1 | h2
      · exact hneg p h1
      · simp only [List.mem_singleton] at h2
        subst h2
        exact h

/-- Association-list lookup returns the stored binding when keys are
distinct (dict behavior). -/
theorem lookup_eq_of_mem_keysNodup :
    ∀ (l : List (Node × List Resource)), (l.map Prod.fst).Nodup →
      ∀ a rs, (a, rs) ∈ l → l.lookup a = some rs := by
  intro l
  induction l with
  | nil =>
    intro _ a rs h
    simp at h
  | cons b t ih =>
    intro hnd a rs h
    simp only [List.map_cons, List.nodup_cons] at hnd
    rcases List.mem_cons.mp h with h1 | h2
    · rw [← h1]
      simp [List.lookup]
    · have hne : ¬ a = b.1 := by
        intro he
        apply hnd.1
        rw [← he]
        exact List.mem_map_of_mem Prod.fst h2
      have hbeq : (a == b.1) = false := by simpa using hne
      simp only [List.lookup, hbeq]
      exact ih hnd.2 a rs h2

theorem cacheSound_foldl_add (net : Network) (a : Node) :
    ∀ (rs : List Resource) (c : Cache), CacheSound net c →
      (∀ r ∈ rs, net.hasResource a r = true) →
      CacheSound net (rs.foldl (fun c2 r => c2.add a r) c) := by
  intro rs
  induction rs with
  | nil =>
    intro c hc _
    exact hc
  | cons r t ih =>
    intro c hc hall
    simp only [List.foldl_cons]
    exact ih _ (cacheSound_add net c a r hc (hall r (List.mem_cons_self r t)))
      (fun x hx => hall x (List.mem_cons_of_mem r hx))

/-- Seeding a sound cache from the network's ground truth keeps it sound
(`Cache.update_from_network` adds only true pairs, given distinct keys). -/
theorem cacheSound_update_from_network (net : Network) (hkeys : net.getAllNodes.Nodup)
    (c : Cache) (hc : CacheSound net c) :
    CacheSound net (c.update_from_network net) := by
  unfold Cache.update_from_network
  have hall : ∀ pr ∈ net.resources, ∀ r ∈ pr.2, net.hasResource pr.1 r = true := by
    intro pr hpr r hr
    unfold Network.hasResource
    rw [lookup_eq_of_mem_keysNodup net.resources hkeys pr.1 pr.2 hpr]
    simpa using hr
  revert c hall
  generalize net.resources = l
  induction l with
  | nil =>
    intro c hc _
    exact hc
  | cons pr t ih =>
    intro c hc hall
    simp only [List.foldl_cons]
    refine ih _ (cacheSound_foldl_add net pr.1 pr.2 c hc
      (hall pr (List.mem_cons_self pr t))) ?_
    intro q hq r hr
    exact hall q (List.mem_cons_of_mem pr hq) r hr

/-- The combined loop-state invariant: the visit counter equals the visited
set's size, the visited set is duplicate-free, all its members satisfy P,
and the cache satisfies Q (instantiated with soundness, or trivially). -/
def StInv (P : Node → Prop) (Q : Cache → Prop) (st : FState) : Prop :=
  st.nodes_visited = st.visited.length ∧
  st.visited.Nodup ∧
  (∀ x ∈ st.visited, P x) ∧
  Q st.cache

theorem branch_visited (b : Bool) (c1 c2 : Cache) (v : List Node) (m nv : Nat) :
    (if b = true then ({ cache := c1, visited := v, messages := m, nodes_visited := nv } : FState)
     else { cache := c2, visited := v, messages := m, nodes_visited := nv }).visited = v := by
  cases b <;> rfl

theorem branch_messages (b : Bool) (c1 c2 : Cache) (v : List Node) (m nv : Nat) :
    (if b = true then ({ cache := c1, visited := v, messages := m, nodes_visited := nv } : FState)
     else { cache := c2, visited := v, messages := m, nodes_visited := nv }).messages = m := by
  cases b <;> rfl

theorem stInv_branch (P : Node → Prop) (Q : Cache → Prop) (b : Bool) (c1 c2 : Cache)
    (v : List Node) (m nv : Nat) (hnv : nv = v.length) (hnd : v.Nodup)
    (hP : ∀ x ∈ v, P x) (hc1 : Q c1) (hc2 : Q c2) :
    StInv P Q
      (if b = true then ({ cache := c1, visited := v, messages := m, nodes_visited := nv } : FState)
       else { cache := c2, visited := v, messages := m, nodes_visited := nv }) := by
  cases b
  · exact ⟨hnv, hnd, hP, hc2⟩
  · exact ⟨hnv, hnd, hP, hc1⟩

/-- State facts preserved by the neighbor pass: the invariant holds on the
outgoing state, messages only grow, newly visited nodes come from the
candidate list, and an early return reports `found = true` with its own
state's counters. -/
theorem processNeighbors_state (informed : Bool) (net : Network) (resource : Resource)
    (depth : Nat) (path : List Node) (P : Node → Prop) (Q : Cache → Prop)
    (hQadd : ∀ c n r, Q c → net.hasResource n r = true → Q (c.add n r))
    (hQneg : ∀ c n r, Q c → net.hasResource n r = false → Q (c.add_negative n r)) :
    ∀ cands st, StInv P Q st → (∀ n ∈ cands, P n) →
      (∀ st' es, processNeighbors informed net resource depth path cands st = Sum.inr (st', es) →
        StInv P Q st' ∧ st.messages ≤ st'.messages ∧
        ∀ x ∈ st'.visited, x ∈ st.visited ∨ x ∈ cands) ∧
      (∀ res st', processNeighbors informed net resource depth path cands st = Sum.inl (res, st') →
        StInv P Q st' ∧ res.found = true ∧ res.messages = st'.messages ∧
        res.nodes_visited = st'.nodes_visited ∧ st.messages ≤ st'.messages) := by
  intro cands
  induction cands with
  | nil =>
    intro st hst hP
    constructor
    · intro st' es heq
      simp only [processNeighbors, Sum.inr.injEq, Prod.mk.injEq] at heq
      obtain ⟨h1, h2⟩ := heq
      subst h1
      exact ⟨hst, Nat.le_refl _, fun x hx => Or.inl hx⟩
    · intro res st' heq
      simp [processNeighbors] at heq
  | cons n rest ih =>
    intro st hst hP
    have hPrest : ∀ m ∈ rest, P m := fun m hm => hP m (List.mem_cons_of_mem n hm)
    have hPn : P n := hP n (List.mem_cons_self n rest)
    have hnodup : ∀ hn : ¬ n ∈ st.visited, (st.visited ++ [n]).Nodup := by
      intro hn
      rw [List.nodup_append]
      refine ⟨hst.2.1, List.nodup_singleton n, ?_⟩
      intro a ha hb
      simp only [List.mem_singleton] at hb
      subst hb
      exact hn ha
    have hPapp : ∀ x ∈ st.visited ++ [n], P x := by
      intro x hx
      rcases List.mem_append.mp hx with h5 | h5
      · exact hst.2.2.1 x h5
      · simp only [List.mem_singleton] at h5
        subst h5
        exact hPn
    have hlen : st.nodes_visited + 1 = (st.visited ++ [n]).length := by
      simp [hst.1]
    constructor
    · intro st' es heq
      simp only [processNeighbors] at heq
      split at heq
      · have h := (ih { cache := st.cache, visited := st.visited, messages := st.messages + 1, nodes_visited := st.nodes_visited } hst hPrest).1 st' es heq
        refine ⟨h.1, Nat.le_trans (Nat.le_succ st.messages) h.2.1, ?_⟩
        intro x hx
        rcases h.2.2 x hx with hh | hh
        · exact Or.inl hh
        · exact Or.inr (List.mem_cons_of_mem n hh)
      · rename_i hnv
        split at heq
        · simp at heq
        · rename_i hres
          split at heq
          · simp at heq
          · rename_i st4 es2 hrec
            simp only [Sum.inr.injEq, Prod.mk.injEq] at heq
            obtain ⟨h1, h2⟩ := heq
            subst h1
            subst h2
            have hBR := stInv_branch P Q informed
              (st.cache.add_negative n resource) st.cache (st.visited ++ [n])
              (st.messages + 1) (st.nodes_visited + 1) hlen (hnodup hnv) hPapp
              (hQneg st.cache n resource hst.2.2.2 (by simpa using hres))
              hst.2.2.2
            have h := (ih _ hBR hPrest).1 st4 es2 hrec
            have hbm := branch_messages informed
              (st.cache.add_negative n resource) st.cache (st.visited ++ [n])
              (st.messages + 1) (st.nodes_visited + 1)
            have hbv := branch_visited informed
              (st.cache.add_negative n resource) st.cache (st.visited ++ [n])
              (st.messages + 1) (st.nodes_visited + 1)
            have h21 := h.2.1
            rw [hbm] at h21
            refine ⟨h.1, by omega, ?_⟩
            intro x hx
            rcases h.2.2 x hx with hh | hh
            · rw [hbv] at hh
              rcases List.mem_append.mp hh with h5 | h5
              · exact Or.inl h5
              · simp only [List.mem_singleton] at h5
                exact Or.inr (by rw [h5]; exact List.mem_cons_self n rest)
            · exact Or.inr (List.mem_cons_of_mem n hh)
    · intro res st' heq
      simp only [processNeighbors] at heq
      split at heq
      · have h := (ih { cache := st.cache, visited := st.visited, messages := st.messages + 1, nodes_visited := st.nodes_visited } hst hPrest).2 res st' heq
        exact ⟨h.1, h.2.1, h.2.2.1, h.2.2.2.1,
          Nat.le_trans (Nat.le_succ st.messages) h.2.2.2.2⟩
      · rename_i hnv
        split at heq
        · rename_i hres
          simp only [Sum.inl.injEq, Prod.mk.injEq] at heq
          obtain ⟨h1, h2⟩ := heq
          subst h2
          subst h1
          have hbm := branch_messages informed
            (st.cache.add n resource) st.cache (st.visited ++ [n])
            (st.messages + 1) (st.nodes_visited + 1)
          refine ⟨?_, rfl, rfl, rfl, ?_⟩
          · exact stInv_branch P Q informed
              (st.cache.add n resource) st.cache (st.visited ++ [n])
              (st.messages + 1) (st.nodes_visited + 1) hlen (hnodup hnv) hPapp
              (hQadd st.cache n resource hst.2.2.2 hres)
              hst.2.2.2
          · rw [hbm]
            exact Nat.le_succ st.messages
        · rename_i hres
          split at heq
          · rename_i r0 hrec
            obtain ⟨res0, st0⟩ := r0
            simp only [Sum.inl.injEq, Prod.mk.injEq] at heq
            obtain ⟨h1, h2⟩ := heq
            subst h1
            subst h2
            have hBR := stInv_branch P Q informed
              (st.cache.add_negative n resource) st.cache (st.visited ++ [n])
              (st.messages + 1) (st.nodes_visited + 1) hlen (hnodup hnv) hPapp
              (hQneg st.cache n resource hst.2.2.2 (by simpa using hres))
              hst.2.2.2
            have h := (ih _ hBR hPrest).2 res0 st0 hrec
            have hbm := branch_messages informed
              (st.cache.add_negative n resource) st.cache (st.visited ++ [n])
              (st.messages + 1) (st.nodes_visited + 1)
            have h5 := h.2.2.2.2
            rw [hbm] at h5
            exact ⟨h.1, h.2.1, h.2.2.1, h.2.2.2.1, by omega⟩
          · simp at heq

/-- Loop-state facts of the flooding loops: the invariant is preserved to
the final state, messages only grow, the reported counters are the final
state's counters, and a not-found result is exactly the final state's
exhaustion record (for any fuel: the fuel-out record has the same
exhaustion shape). -/
theorem floodLoop_inv (informed : Bool) (net : Network) (resource : Resource) (ttl : Nat)
    (P : Node → Prop) (Q : Cache → Prop)
    (hPn : ∀ v, ∀ x ∈ net.getNeighbors v, P x)
    (hQadd : ∀ c n r, Q c → net.hasResource n r = true → Q (c.add n r))
    (hQneg : ∀ c n r, Q c → net.hasResource n r = false → Q (c.add_negative n r)) :
    ∀ fuel st q, StInv P Q st →
      StInv P Q (floodLoop informed net resource ttl fuel st q).2 ∧
      st.messages ≤ (floodLoop informed net resource ttl fuel st q).2.messages ∧
      (floodLoop informed net resource ttl fuel st q).1.messages =
        (floodLoop informed net resource ttl fuel st q).2.messages ∧
      (floodLoop informed net resource ttl fuel st q).1.nodes_visited =
        (floodLoop informed net resource ttl fuel st q).2.nodes_visited ∧
      ((floodLoop informed net resource ttl fuel st q).1.found = false →
        (floodLoop informed net resource ttl fuel st q).1 =
          { found := false
            messages := (floodLoop informed net resource ttl fuel st q).2.messages
            nodes_visited := (floodLoop informed net resource ttl fuel st q).2.nodes_visited
            path := (floodLoop informed net resource ttl fuel st q).2.visited
            all_visited := if informed then none
              else some (floodLoop informed net resource ttl fuel st q).2.visited }) := by
  intro fuel
  induction fuel with
  | zero =>
    intro st q hst
    cases q with
    | nil =>
      simp only [floodLoop]
      simp only [and_true, true_and]
      exact ⟨hst, Nat.le_refl _, fun _ => trivial⟩
    | cons e rest =>
      simp only [floodLoop]
      simp only [and_true, true_and]
      exact ⟨hst, Nat.le_refl _, fun _ => trivial⟩
  | succ fuel ih =>
    intro st q hst
    cases q with
    | nil =>
      simp only [floodLoop]
      simp only [and_true, true_and]
      exact ⟨hst, Nat.le_refl _, fun _ => trivial⟩
    | cons e rest =>
      obtain ⟨cur, depth, path⟩ := e
      by_cases hd : depth ≥ ttl
      · have heq : floodLoop informed net resource ttl (fuel + 1) st
            ((cur, depth, path) :: rest) =
            floodLoop informed net resource ttl fuel st rest := by
          rw [floodLoop]
          simp [hd]
        rw [heq]
        exact ih st rest hst
      · have hcand : ∀ n ∈ (if informed = true
              then cacheCandidates st.cache resource (net.getNeighbors cur)
              else net.getNeighbors cur), P n := by
          intro n hn
          apply hPn cur
          split at hn
          · exact List.mem_of_mem_filter hn
          · exact hn
        cases hpn : processNeighbors informed net resource depth path
            (if informed = true then cacheCandidates st.cache resource (net.getNeighbors cur)
             else net.getNeighbors cur) st with
        | inl p =>
          obtain ⟨r, st1⟩ := p
          have heq : floodLoop informed net resource ttl (fuel + 1) st
              ((cur, depth, path) :: rest) = (r, st1) := by
            rw [floodLoop]
            simp only [hd, if_false, reduceIte]
            rw [hpn]
          rw [heq]
          have h := (processNeighbors_state informed net resource depth path P Q hQadd hQneg
            _ st hst hcand).2 r st1 hpn
          refine ⟨h.1, h.2.2.2.2, h.2.2.1, h.2.2.2.1, ?_⟩
          intro hfound
          rw [h.2.1] at hfound
          simp at hfound
        | inr p =>
          obtain ⟨st1, es⟩ := p
          have heq : floodLoop informed net resource ttl (fuel + 1) st
              ((cur, depth, path) :: rest) =
              floodLoop informed net resource ttl fuel st1
                (rest ++ if depth + 1 < ttl then es else []) := by
            rw [floodLoop]
            simp only [hd, if_false, reduceIte]
            rw [hpn]
          rw [heq]
          have h := (processNeighbors_state informed net resource depth path P Q hQadd hQneg
            _ st hst hcand).1 st1 es hpn
          have hrec := ih st1 (rest ++ if depth + 1 < ttl then es else []) h.1
          exact ⟨hrec.1, Nat.le_trans h.2.1 hrec.2.1, hrec.2.2.1, hrec.2.2.2.1,
            hrec.2.2.2.2⟩

/-- When the start node is valid and does not hold the resource, `flooding`
is its queue loop started from the singleton state. -/
theorem flooding_eq_loop (net : Network) (start : Node) (resource : Resource) (ttl : Nat)
    (hmem : start ∈ net.getAllNodes) (hres : net.hasResource start resource = false) :
    flooding net start resource ttl =
      ((floodLoop false net resource ttl (floodFuel net)
        { cache := Cache.empty, visited := [start], messages := 0, nodes_visited := 1 }
        [(start, 0, [start])]).1, net) := by
  unfold flooding
  simp [hmem, hres]

/-- When the start node is valid, uncached and does not hold the resource,
`informed_flooding` is its queue loop started from the singleton state. -/
theorem informed_flooding_eq_loop (net : Network) (start : Node) (resource : Resource)
    (ttl : Nat) (c : Cache) (hmem : start ∈ net.getAllNodes)
    (hchas : c.has start resource = false) (hres : net.hasResource start resource = false) :
    informed_flooding net start resource ttl (some c) =
      ((floodLoop true net resource ttl (floodFuel net)
        { cache := c, visited := [start], messages := 0, nodes_visited := 1 }
        [(start, 0, [start])]).1, net,
       (floodLoop true net resource ttl (floodFuel net)
        { cache := c, visited := [start], messages := 0, nodes_visited := 1 }
        [(start, 0, [start])]).2.cache) := by
  unfold informed_flooding
  simp [hmem, hchas, hres]

/-- A missing cache argument is the seeded-cache call (Python default). -/
theorem informed_flooding_none (net : Network) (start : Node) (resource : Resource)
    (ttl : Nat) :
    informed_flooding net start resource ttl none =
      informed_flooding net start resource ttl
        (some (Cache.update_from_network Cache.empty net)) := rfl

/-- A missing cache argument is the seeded-cache call (Python default). -/
theorem informed_random_walk_none (net : Network) (start : Node) (resource : Resource)
    (ttl : Nat) (rand : List Nat) :
    informed_random_walk net start resource ttl rand none =
      informed_random_walk net start resource ttl rand
        (some (Cache.update_from_network Cache.empty net)) := rfl

theorem stInv_init (P : Node → Prop) (Q : Cache → Prop) (start : Node) (hP : P start)
    (c : Cache) (hQ : Q c) :
    StInv P Q { cache := c, visited := [start], messages := 0, nodes_visited := 1 } := by
  refine ⟨rfl, List.nodup_singleton start, ?_, hQ⟩
  intro x hx
  simp only [List.mem_singleton] at hx
  rw [hx]
  exact hP

/-- C7 as stated is false: at an exhausted informed-flooding search the
returned dict has no `all_visited` key at all. -/
theorem C7_counterexample :
    (informed_flooding ring4 "A" "z" 2 (some Cache.empty)).1.found = false ∧
    (informed_flooding ring4 "A" "z" 2 (some Cache.empty)).1.all_visited = none := by
  decide

/-- C7 amended: on exhaustion (found=false, valid start) plain `flooding`
returns the visited set as both `path` and `all_visited` (with
`nodes_visited` its size), while `informed_flooding` returns the visited set
only as `path` — its result carries no `all_visited` field. -/
theorem C7_exhaustion (net : Network) (start : Node) (resource : Resource) (ttl : Nat)
    (cacheArg : Option Cache) (hmem : start ∈ net.getAllNodes) :
    ((flooding net start resource ttl).1.found = false →
      (flooding net start resource ttl).1.all_visited =
        some (flooding net start resource ttl).1.path ∧
      (flooding net start resource ttl).1.nodes_visited =
        (flooding net start resource ttl).1.path.length) ∧
    ((informed_flooding net start resource ttl cacheArg).1.found = false →
      (informed_flooding net start resource ttl cacheArg).1.all_visited = none ∧
      (informed_flooding net start resource ttl cacheArg).1.nodes_visited =
        (informed_flooding net start resource ttl cacheArg).1.path.length) := by
  have hflood : ∀ c : Cache, c.has start resource = false →
      net.hasResource start resource = false →
      (informed_flooding net start resource ttl (some c)).1.found = false →
      (informed_flooding net start resource ttl (some c)).1.all_visited = none ∧
      (informed_flooding net start resource ttl (some c)).1.nodes_visited =
        (informed_flooding net start resource ttl (some c)).1.path.length := by
    intro c hchas hres hfound
    rw [informed_flooding_eq_loop net start resource ttl c hmem hchas hres] at hfound ⊢
    have hinv := floodLoop_inv true net resource ttl (fun _ => True) (fun _ => True)
      (fun _ _ _ => trivial) (fun _ _ _ _ _ => trivial) (fun _ _ _ _ _ => trivial)
      (floodFuel net)
      { cache := c, visited := [start], messages := 0, nodes_visited := 1 }
      [(start, 0, [start])]
      (stInv_init _ _ start trivial c trivial)
    have hr := hinv.2.2.2.2 hfound
    rw [hr]
    exact ⟨by simp, by simpa using hinv.1.1⟩
  constructor
  · intro hfound
    by_cases hres : net.hasResource start resource = true
    · exfalso
      unfold flooding at hfound
      simp [hmem, hres, startHasResult] at hfound
    · rw [Bool.not_eq_true] at hres
      rw [flooding_eq_loop net start resource ttl hmem hres] at hfound ⊢
      have hinv := floodLoop_inv false net resource ttl (fun _ => True) (fun _ => True)
        (fun _ _ _ => trivial) (fun _ _ _ _ _ => trivial) (fun _ _ _ _ _ => trivial)
        (floodFuel net)
        { cache := Cache.empty, visited := [start], messages := 0, nodes_visited := 1 }
        [(start, 0, [start])]
        (stInv_init _ _ start trivial Cache.empty trivial)
      have hr := hinv.2.2.2.2 hfound
      rw [hr]
      exact ⟨by simp, by simpa using hinv.1.1⟩
  · intro hfound
    rcases hcase : cacheArg with _ | c
    · rw [hcase] at hfound
      rw [informed_flooding_none] at hfound ⊢
      by_cases hchas :
          (Cache.update_from_network Cache.empty net).has start resource = true
      · exfalso
        unfold informed_flooding at hfound
        simp [hmem, hchas, startHasResult] at hfound
      · rw [Bool.not_eq_true] at hchas
        by_cases hres : net.hasResource start resource = true
        · exfalso
          unfold informed_flooding at hfound
          simp [hmem, hchas, hres, startHasResult] at hfound
        · rw [Bool.not_eq_true] at hres
          exact hflood _ hchas hres hfound
    · rw [hcase] at hfound
      by_cases hchas : c.has start resource = true
      · exfalso
        unfold informed_flooding at hfound
        simp [hmem, hchas, startHasResult] at hfound
      · rw [Bool.not_eq_true] at hchas
        by_cases hres : net.hasResource start resource = true
        · exfalso
          unfold informed_flooding at hfound
          simp [hmem, hchas, hres, startHasResult] at hfound
        · rw [Bool.not_eq_true] at hres
          exact hflood c hchas hres hfound

/-- C7 amended, witnessed on the ring at an in-network start. -/
theorem C7_exhaustion_witness :
    ((flooding ring4 "A" "z" 2).1.found = false →
      (flooding ring4 "A" "z" 2).1.all_visited = some (flooding ring4 "A" "z" 2).1.path ∧
      (flooding ring4 "A" "z" 2).1.nodes_visited =
        (flooding ring4 "A" "z" 2).1.path.length) ∧
    ((informed_flooding ring4 "A" "z" 2 (some Cache.empty)).1.found = false →
      (informed_flooding ring4 "A" "z" 2 (some Cache.empty)).1.all_visited = none ∧
      (informed_flooding ring4 "A" "z" 2 (some Cache.empty)).1.nodes_visited =
        (informed_flooding ring4 "A" "z" 2 (some Cache.empty)).1.path.length) :=
  C7_exhaustion ring4 "A" "z" 2 (some Cache.empty) (by decide)

/-- The informed walk's loop writes only guarded observations into the
cache, so soundness is preserved. -/
theorem iwalkLoop_cacheSound (net : Network) (resource : Resource) (ttl : Nat) :
    ∀ fuel (rand : List Nat) (current : Node) (path visited : List Node)
      (messages steps : Nat) (cache : Cache),
      ttl - steps ≤ fuel → CacheSound net cache →
      CacheSound net
        (iwalkLoop net resource ttl rand current path visited messages steps cache).2 := by
  intro fuel
  induction fuel with
  | zero =>
    intro rand current path visited messages steps cache hf hc
    have hge : ¬ steps < ttl := by omega
    rw [iwalkLoop]
    simp only [hge, if_false, reduceIte]
    exact hc
  | succ fuel ih =>
    intro rand current path visited messages steps cache hf hc
    rw [iwalkLoop]
    dsimp only
    split
    · split
      · exact hc
      · split
        · split
          · rename_i hres
            exact cacheSound_add net cache _ resource hc hres
          · rename_i hres
            exact ih _ _ _ _ _ _ _ (by omega)
              (cacheSound_add_negative net cache _ resource hc (by simpa using hres))
        · split
          · rename_i hres
            exact cacheSound_add net cache _ resource hc hres
          · rename_i hres
            exact ih _ _ _ _ _ _ _ (by omega)
              (cacheSound_add_negative net cache _ resource hc (by simpa using hres))
    · exact hc

/-- C1: after an informed search run against a cache that is initially
empty or seeded from the network's ground truth, every cache entry is true:
positives are held resources, negatives are truly absent. -/
theorem C1_cache_truth (net : Network) (start : Node) (resource : Resource) (ttl : Nat)
    (rand : List Nat) (c0 : Cache) (hkeys : net.getAllNodes.Nodup)
    (hc0 : c0 = Cache.empty ∨ c0 = Cache.update_from_network Cache.empty net) :
    CacheSound net (informed_flooding net start resource ttl (some c0)).2.2 ∧
    CacheSound net (informed_random_walk net start resource ttl rand (some c0)).2.2 := by
  have hsound : CacheSound net c0 := by
    rcases hc0 with h | h
    · rw [h]
      exact cacheSound_empty net
    · rw [h]
      exact cacheSound_update_from_network net hkeys Cache.empty (cacheSound_empty net)
  constructor
  · by_cases hmem : start ∈ net.getAllNodes
    · by_cases hchas : c0.has start resource = true
      · unfold informed_flooding
        simp [hmem, hchas, hsound]
      · rw [Bool.not_eq_true] at hchas
        by_cases hres : net.hasResource start resource = true
        · unfold informed_flooding
          simp only [hmem, not_true_eq_false, if_false, reduceIte, hchas, hres]
          simp [cacheSound_add net c0 start resource hsound hres]
        · rw [Bool.not_eq_true] at hres
          rw [informed_flooding_eq_loop net start resource ttl c0 hmem hchas hres]
          have hinv := floodLoop_inv true net resource ttl (fun _ => True)
            (CacheSound net) (fun _ _ _ => trivial)
            (fun c n r hc h => cacheSound_add net c n r hc h)
            (fun c n r hc h => cacheSound_add_negative net c n r hc h)
            (floodFuel net)
            { cache := c0, visited := [start], messages := 0, nodes_visited := 1 }
            [(start, 0, [start])]
            (stInv_init _ _ start trivial c0 hsound)
          exact hinv.1.2.2.2
    · unfold informed_flooding
      simp [hmem, hsound]
  · by_cases hmem : start ∈ net.getAllNodes
    · by_cases hchas : c0.has start resource = true
      · unfold informed_random_walk
        simp [hmem, hchas, hsound]
      · rw [Bool.not_eq_true] at hchas
        by_cases hres : net.hasResource start resource = true
        · unfold informed_random_walk
          simp only [hmem, not_true_eq_false, if_false, reduceIte, hchas, hres]
          simp [cacheSound_add net c0 start resource hsound hres]
        · rw [Bool.not_eq_true] at hres
          unfold informed_random_walk
          simp only [hmem, not_true_eq_false, if_false, reduceIte, hchas, hres]
          exact iwalkLoop_cacheSound net resource ttl ttl rand start [start] [start] 0 0 c0
            (by omega) hsound
    · unfold informed_random_walk
      simp [hmem, hsound]

/-- C1 witness: an informed flooding run and an informed walk run from the
empty cache on the ring. -/
theorem C1_cache_truth_witness :
    CacheSound ring4 (informed_flooding ring4 "A" "y" 3 (some Cache.empty)).2.2 ∧
    CacheSound ring4 (informed_random_walk ring4 "A" "y" 3 [0, 0, 0] (some Cache.empty)).2.2 :=
  C1_cache_truth ring4 "A" "y" 3 [0, 0, 0] Cache.empty (by decide) (Or.inl rfl)

/-- The neighbor pass when no candidate truly holds the resource: no early
return happens, exactly one message is billed per candidate — including
candidates already visited — and the visited set gains exactly the
candidates. -/
theorem processNeighbors_no_holder (informed : Bool) (net : Network) (resource : Resource)
    (depth : Nat) (path : List Node) :
    ∀ cands st, (∀ n ∈ cands, net.hasResource n resource = false) →
      ∃ st' es,
        processNeighbors informed net resource depth path cands st = Sum.inr (st', es) ∧
        st'.messages = st.messages + cands.length ∧
        (∀ x, x ∈ st'.visited ↔ x ∈ st.visited ∨ x ∈ cands) := by
  intro cands
  induction cands with
  | nil =>
    intro st _
    refine ⟨st, [], rfl, by simp, ?_⟩
    intro x
    simp
  | cons n rest ih =>
    intro st hno
    have hnon : net.hasResource n resource = false := hno n (List.mem_cons_self n rest)
    have hnorest : ∀ m ∈ rest, net.hasResource m resource = false :=
      fun m hm => hno m (List.mem_cons_of_mem n hm)
    by_cases hv : n ∈ st.visited
    · obtain ⟨st', es, heq, hm, hvis⟩ := ih
        { cache := st.cache, visited := st.visited, messages := st.messages + 1, nodes_visited := st.nodes_visited } hnorest
      refine ⟨st', es, ?_, ?_, ?_⟩
      · simp only [processNeighbors]
        rw [if_pos hv]
        exact heq
      · simp only at hm
        simp only [List.length_cons]
        omega
      · intro x
        rw [hvis x]
        simp only [List.mem_cons]
        constructor
        · tauto
        · rintro (h | h | h)
          · exact Or.inl h
          · rw [h]
            exact Or.inl hv
          · exact Or.inr h
    · obtain ⟨st', es, heq, hm, hvis⟩ := ih
        (if informed = true
         then ({ cache := st.cache.add_negative n resource, visited := st.visited ++ [n],
                 messages := st.messages + 1, nodes_visited := st.nodes_visited + 1 } : FState)
         else { cache := st.cache, visited := st.visited ++ [n],
                messages := st.messages + 1, nodes_visited := st.nodes_visited + 1 }) hnorest
      have hbm := branch_messages informed (st.cache.add_negative n resource) st.cache
        (st.visited ++ [n]) (st.messages + 1) (st.nodes_visited + 1)
      have hbv := branch_visited informed (st.cache.add_negative n resource) st.cache
        (st.visited ++ [n]) (st.messages + 1) (st.nodes_visited + 1)
      refine ⟨st', (n, depth + 1, path ++ [n]) :: es, ?_, ?_, ?_⟩
      · simp only [processNeighbors]
        rw [if_neg hv]
        simp only [hnon, Bool.false_eq_true, if_false, reduceIte]
        rw [heq]
      · rw [hm, hbm]
        simp only [List.length_cons]
        omega
      · intro x
        rw [hvis x, hbv]
        simp only [List.mem_append, List.mem_singleton, List.mem_cons, List.not_mem_nil,
          or_false]
        tauto

/-- C6: when informed flooding expands a node at depth < ttl, a neighbor is
excluded from the probing candidates exactly when the cache holds a
negative belief and no positive belief for (neighbor, resource); and when
no candidate truly holds the resource, the loop proceeds having billed
exactly one message per candidate — already-visited candidates included —
with the visited set gaining exactly the candidates (excluded neighbors are
neither billed nor visited in this expansion). -/
theorem C6_exclusion (net : Network) (resource : Resource) (ttl : Nat) (st : FState)
    (cur : Node) (depth : Nat) (path : List Node) (rest : List Entry) (fuel : Nat)
    (hd : depth < ttl) :
    (∀ n ∈ net.getNeighbors cur,
      (n ∉ cacheCandidates st.cache resource (net.getNeighbors cur) ↔
        st.cache.has_negative n resource = true ∧ st.cache.has n resource = false)) ∧
    ((∀ n ∈ cacheCandidates st.cache resource (net.getNeighbors cur),
        net.hasResource n resource = false) →
      ∃ st' es,
        floodLoop true net resource ttl (fuel + 1) st ((cur, depth, path) :: rest) =
          floodLoop true net resource ttl fuel st'
            (rest ++ if depth + 1 < ttl then es else []) ∧
        st'.messages = st.messages +
          (cacheCandidates st.cache resource (net.getNeighbors cur)).length ∧
        (∀ x, x ∈ st'.visited ↔ x ∈ st.visited ∨
          x ∈ cacheCandidates st.cache resource (net.getNeighbors cur))) := by
  constructor
  · intro n hn
    simp only [cacheCandidates, List.mem_filter, hn, true_and, not_and, Bool.or_eq_true,
      Bool.not_eq_true]
    constructor
    · intro h
      rcases hhn : st.cache.has_negative n resource with _ | _
      · exfalso
        apply h
        simp [hhn]
      · refine ⟨rfl, ?_⟩
        rcases hhp : st.cache.has n resource with _ | _
        · rfl
        · exfalso
          apply h
          simp [hhp]
    · intro h hcontra
      rcases hcontra with h1 | h1
      · rw [h.2] at h1
        exact Bool.false_ne_true h1
      · rw [h.1] at h1
        simp at h1
  · intro hno
    obtain ⟨st', es, heq, hm, hvis⟩ := processNeighbors_no_holder true net resource depth path
      (cacheCandidates st.cache resource (net.getNeighbors cur)) st hno
    refine ⟨st', es, ?_, hm, hvis⟩
    rw [floodLoop]
    have hnd : ¬ depth ≥ ttl := by omega
    simp only [hnd, if_false, reduceIte]
    rw [heq]

/-- A cache that negatively believes (B, z). -/
def caseCache : Cache := { pos := [], neg := [("B", "z")] }

/-- The loop state used by the C6 witness. -/
def caseState : FState :=
  { cache := caseCache, visited := ["A"], messages := 0, nodes_visited := 1 }

/-- C6 witness: on the ring with a cache negatively believing (B, z),
expanding A at depth 0 < ttl. -/
theorem C6_exclusion_witness :
    (∀ n ∈ ring4.getNeighbors "A",
      (n ∉ cacheCandidates caseCache "z" (ring4.getNeighbors "A") ↔
        caseCache.has_negative n "z" = true ∧ caseCache.has n "z" = false)) ∧
    ((∀ n ∈ cacheCandidates caseCache "z" (ring4.getNeighbors "A"),
        ring4.hasResource n "z" = false) →
      ∃ st' es,
        floodLoop true ring4 "z" 2 (5 + 1) caseState (("A", 0, ["A"]) :: []) =
          floodLoop true ring4 "z" 2 5 st' ([] ++ if 0 + 1 < 2 then es else []) ∧
        st'.messages = caseState.messages +
          (cacheCandidates caseCache "z" (ring4.getNeighbors "A")).length ∧
        (∀ x, x ∈ st'.visited ↔ x ∈ caseState.visited ∨
          x ∈ cacheCandidates caseCache "z" (ring4.getNeighbors "A"))) :=
  C6_exclusion ring4 "z" 2 caseState "A" 0 ["A"] [] 5 (by decide)

/-- Every entry the neighbor pass emits sits at depth `depth + 1`. -/
theorem processNeighbors_entries_depth (informed : Bool) (net : Network)
    (resource : Resource) (depth : Nat) (path : List Node) :
    ∀ cands st st' es,
      processNeighbors informed net resource depth path cands st = Sum.inr (st', es) →
      ∀ f ∈ es, f.2.1 = depth + 1 := by
  intro cands
  induction cands with
  | nil =>
    intro st st' es heq f hf
    simp only [processNeighbors, Sum.inr.injEq, Prod.mk.injEq] at heq
    obtain ⟨h1, h2⟩ := heq
    subst h2
    simp at hf
  | cons n rest ih =>
    intro st st' es heq f hf
    simp only [processNeighbors] at heq
    split at heq
    · exact ih _ st' es heq f hf
    · split at heq
      · simp at heq
      · split at heq
        · simp at heq
        · rename_i st4 es2 hrec
          simp only [Sum.inr.injEq, Prod.mk.injEq] at heq
          obtain ⟨h1, h2⟩ := heq
          subst h1
          subst h2
          rcases List.mem_cons.mp hf with h | h
          · rw [h]
          · exact ih _ st4 es2 hrec f h

/-- Draining entries at or beyond the ttl adds no messages. -/
theorem floodLoop_drain (informed : Bool) (net : Network) (resource : Resource) (ttl : Nat) :
    ∀ fuel st q, (∀ e ∈ q, ttl ≤ e.2.1) →
      (floodLoop informed net resource ttl fuel st q).1.messages = st.messages := by
  intro fuel
  induction fuel with
  | zero =>
    intro st q _
    cases q <;> simp [floodLoop]
  | succ fuel ih =>
    intro st q hq
    cases q with
    | nil => simp [floodLoop]
    | cons e rest =>
      obtain ⟨cur, depth, path⟩ := e
      have hd : depth ≥ ttl := hq _ (List.mem_cons_self _ _)
      rw [floodLoop]
      rw [if_pos hd]
      exact ih st rest (fun f hf => hq f (List.mem_cons_of_mem _ hf))

/-- A queue whose depths take at most two consecutive values, lower first —
the BFS shape that the flooding queues always have. -/
def LevelSplit (q : List Entry) : Prop :=
  ∃ a lo hi, q = lo ++ hi ∧ (∀ e ∈ lo, e.2.1 = a) ∧ (∀ e ∈ hi, e.2.1 = a + 1)

theorem levelSplit_singleton (e : Entry) : LevelSplit [e] :=
  ⟨e.2.1, [e], [], by simp, by simp, by simp⟩

theorem levelSplit_tail_le (e : Entry) (t : List Entry) (h : LevelSplit (e :: t)) :
    ∀ f ∈ t, f.2.1 ≤ e.2.1 + 1 := by
  obtain ⟨a, lo, hi, heq, hlo, hhi⟩ := h
  cases lo with
  | nil =>
    simp only [List.nil_append] at heq
    intro f hf
    have he : e.2.1 = a + 1 := hhi e (by rw [← heq]; exact List.mem_cons_self _ _)
    have hf2 : f.2.1 = a + 1 := hhi f (by rw [← heq]; exact List.mem_cons_of_mem _ hf)
    omega
  | cons l0 lo2 =>
    rw [List.cons_append] at heq
    injection heq with h1 h2
    subst h1
    subst h2
    have he : e.2.1 = a := hlo e (List.mem_cons_self _ _)
    intro f hf
    rcases List.mem_append.mp hf with h | h
    · have := hlo f (List.mem_cons_of_mem _ h)
      omega
    · have := hhi f h
      omega

theorem levelSplit_step (e : Entry) (t new : List Entry) (h : LevelSplit (e :: t))
    (hnew : ∀ f ∈ new, f.2.1 = e.2.1 + 1) : LevelSplit (t ++ new) := by
  obtain ⟨a, lo, hi, heq, hlo, hhi⟩ := h
  cases lo with
  | nil =>
    simp only [List.nil_append] at heq
    have he : e.2.1 = a + 1 := hhi e (by rw [← heq]; exact List.mem_cons_self _ _)
    refine ⟨a + 1, t, new, rfl, ?_, ?_⟩
    · intro f hf
      exact hhi f (by rw [← heq]; exact List.mem_cons_of_mem _ hf)
    · intro f hf
      rw [hnew f hf, he]
  | cons l0 lo2 =>
    rw [List.cons_append] at heq
    injection heq with h1 h2
    subst h1
    subst h2
    have he : e.2.1 = a := hlo e (List.mem_cons_self _ _)
    refine ⟨a, lo2, hi ++ new, List.append_assoc _ _ _, ?_, ?_⟩
    · intro f hf
      exact hlo f (List.mem_cons_of_mem _ hf)
    · intro f hf
      rcases List.mem_append.mp hf with h | h
      · exact hhi f h
      · rw [hnew f h, he]

/-- The relation between the queues of a ttl run and a (ttl+1) run from
matched states: the longer run's queue extends the shorter run's by entries
at depth exactly ttl, the shared entries sit strictly below ttl, and the
combined queue has the BFS two-level shape. -/
def QueuePair (ttl : Nat) (q q2 : List Entry) : Prop :=
  ∃ ex, q2 = q ++ ex ∧ (∀ e ∈ ex, e.2.1 = ttl) ∧ (∀ e ∈ q, e.2.1 < ttl) ∧ LevelSplit q2

/-- Monotonicity engine for C4: from matched states, a ttl run never sends
more messages than the (ttl+1) run whose queue extends it with depth-ttl
entries.  The two runs expand the same nodes in the same order until the
shorter run's queue empties; the longer run then only adds messages. -/
theorem floodLoop_pair (informed : Bool) (net : Network) (resource : Resource) (ttl : Nat) :
    ∀ fuel st q q2, StInv (fun _ => True) (fun _ => True) st → QueuePair ttl q q2 →
      (floodLoop informed net resource ttl fuel st q).1.messages ≤
      (floodLoop informed net resource (ttl + 1) fuel st q2).1.messages := by
  intro fuel
  induction fuel with
  | zero =>
    intro st q q2 _ _
    cases q <;> cases q2 <;> simp [floodLoop]
  | succ fuel ih =>
    intro st q q2 hst hqp
    obtain ⟨ex, hq2, hex, hqlt, hls⟩ := hqp
    cases q with
    | nil =>
      have hL : (floodLoop informed net resource ttl (fuel + 1) st []).1.messages =
          st.messages := by
        simp [floodLoop]
      rw [hL]
      have hinv := floodLoop_inv informed net resource (ttl + 1) (fun _ => True)
        (fun _ => True) (fun _ _ _ => trivial) (fun _ _ _ _ _ => trivial)
        (fun _ _ _ _ _ => trivial) (fuel + 1) st q2 hst
      have h1 := hinv.2.1
      have h2 := hinv.2.2.1
      omega
    | cons e rest =>
      obtain ⟨cur, depth, path⟩ := e
      have hd : depth < ttl := by
        have h := hqlt _ (List.mem_cons_self _ _)
        simpa using h
      subst hq2
      rw [List.cons_append] at hls ⊢
      have hndL : ¬ depth ≥ ttl := by omega
      have hndR : ¬ depth ≥ ttl + 1 := by omega
      rw [floodLoop, floodLoop, if_neg hndL, if_neg hndR]
      have hcand : ∀ n ∈ (if informed = true
            then cacheCandidates st.cache resource (net.getNeighbors cur)
            else net.getNeighbors cur), (fun _ : Node => True) n :=
        fun _ _ => trivial
      cases hpn : processNeighbors informed net resource depth path
          (if informed = true then cacheCandidates st.cache resource (net.getNeighbors cur)
           else net.getNeighbors cur) st with
      | inl p =>
        obtain ⟨r, st1⟩ := p
        exact Nat.le_refl _
      | inr p =>
        obtain ⟨st1, es⟩ := p
        have hst1 := ((processNeighbors_state informed net resource depth path
          (fun _ => True) (fun _ => True) (fun _ _ _ _ _ => trivial)
          (fun _ _ _ _ _ => trivial) _ st hst hcand).1 st1 es hpn).1
        have hdep : ∀ f ∈ es, f.2.1 = depth + 1 :=
          processNeighbors_entries_depth informed net resource depth path _ st st1 es hpn
        have hc2 : depth + 1 < ttl + 1 := by omega
        dsimp only
        rw [if_pos hc2]
        by_cases hc : depth + 1 < ttl
        · have hexnil : ex = [] := by
            rw [List.eq_nil_iff_forall_not_mem]
            intro f hf
            have h1 := hex f hf
            have h2 : f.2.1 ≤ depth + 1 :=
              levelSplit_tail_le _ _ hls f (List.mem_append_right rest hf)
            omega
          rw [hexnil, List.append_nil] at hls ⊢
          rw [if_pos hc]
          apply ih st1 (rest ++ es) (rest ++ es) hst1
          refine ⟨[], (List.append_nil _).symm, by simp, ?_, ?_⟩
          · intro f hf
            rcases List.mem_append.mp hf with h | h
            · exact hqlt f (List.mem_cons_of_mem _ h)
            · rw [hdep f h]
              exact hc
          · exact levelSplit_step _ rest es hls (fun f hf => hdep f hf)
        · have hc3 : depth + 1 = ttl := by omega
          rw [if_neg hc, List.append_nil]
          apply ih st1 rest ((rest ++ ex) ++ es) hst1
          refine ⟨ex ++ es, List.append_assoc _ _ _, ?_, ?_, ?_⟩
          · intro f hf
            rcases List.mem_append.mp hf with h | h
            · exact hex f h
            · rw [hdep f h]
              exact hc3
          · intro f hf
            exact hqlt f (List.mem_cons_of_mem _ hf)
          · exact levelSplit_step _ (rest ++ ex) es hls (fun f hf => hdep f hf)

theorem mem_edgeFold : ∀ (edges : List (Node × Node)) (x : Node),
    x ∈ edges.foldr (fun e acc => e.1 :: e.2 :: acc) [] →
    ∃ e ∈ edges, x = e.1 ∨ x = e.2 := by
  intro edges
  induction edges with
  | nil =>
    intro x hx
    simp at hx
  | cons e t ih =>
    intro x hx
    simp only [List.foldr_cons, List.mem_cons] at hx
    rcases hx with h | h | h
    · exact ⟨e, List.mem_cons_self _ _, Or.inl h⟩
    · exact ⟨e, List.mem_cons_self _ _, Or.inr h⟩
    · obtain ⟨f, hf, ho⟩ := ih x h
      exact ⟨f, List.mem_cons_of_mem _ hf, ho⟩

/-- In a validated network every neighbor is a known node. -/
theorem getNeighbors_subset_allNodes (net : Network) (hval : net.validated) (v : Node) :
    ∀ x ∈ net.getNeighbors v, x ∈ net.getAllNodes := by
  intro x hx
  unfold Network.getNeighbors at hx
  rw [List.mem_dedup] at hx
  obtain ⟨e, he, ho⟩ := mem_edgeFold net.edges x (mem_adjFold hx)
  rcases ho with h | h
  · rw [h]
    exact (hval.2.2 e he).1
  · rw [h]
    exact (hval.2.2 e he).2

theorem length_le_of_nodup_subset {l1 l2 : List Node} (h1 : l1.Nodup)
    (h2 : ∀ x ∈ l1, x ∈ l2) : l1.length ≤ l2.length :=
  (List.subperm_of_subset h1 h2).length_le

theorem flooding_messages_mono_succ (net : Network) (start : Node) (resource : Resource)
    (ttl : Nat) :
    (flooding net start resource ttl).1.messages ≤
      (flooding net start resource (ttl + 1)).1.messages := by
  by_cases hmem : start ∈ net.getAllNodes
  · by_cases hres : net.hasResource start resource = true
    · unfold flooding
      simp [hmem, hres]
    · rw [Bool.not_eq_true] at hres
      rw [flooding_eq_loop net start resource ttl hmem hres,
          flooding_eq_loop net start resource (ttl + 1) hmem hres]
      rcases Nat.eq_zero_or_pos ttl with h0 | hpos
      · subst h0
        have hdr := floodLoop_drain false net resource 0 (floodFuel net)
          { cache := Cache.empty, visited := [start], messages := 0, nodes_visited := 1 }
          [(start, 0, [start])] (fun e _ => Nat.zero_le _)
        simp only at hdr
        rw [hdr]
        exact Nat.zero_le _
      · apply floodLoop_pair false net resource ttl (floodFuel net)
          _ _ _ (stInv_init _ _ start trivial Cache.empty trivial)
        refine ⟨[], (List.append_nil _).symm, by simp, ?_, levelSplit_singleton _⟩
        intro e he
        simp only [List.mem_singleton] at he
        rw [he]
        exact hpos
  · unfold flooding
    simp [hmem]

theorem informed_flooding_messages_mono_succ (net : Network) (start : Node)
    (resource : Resource) (ttl : Nat) (c : Cache) :
    (informed_flooding net start resource ttl (some c)).1.messages ≤
      (informed_flooding net start resource (ttl + 1) (some c)).1.messages := by
  by_cases hmem : start ∈ net.getAllNodes
  · by_cases hchas : c.has start resource = true
    · unfold informed_flooding
      simp [hmem, hchas]
    · rw [Bool.not_eq_true] at hchas
      by_cases hres : net.hasResource start resource = true
      · unfold informed_flooding
        simp [hmem, hchas, hres]
      · rw [Bool.not_eq_true] at hres
        rw [informed_flooding_eq_loop net start resource ttl c hmem hchas hres,
            informed_flooding_eq_loop net start resource (ttl + 1) c hmem hchas hres]
        rcases Nat.eq_zero_or_pos ttl with h0 | hpos
        · subst h0
          have hdr := floodLoop_drain true net resource 0 (floodFuel net)
            { cache := c, visited := [start], messages := 0, nodes_visited := 1 }
            [(start, 0, [start])] (fun e _ => Nat.zero_le _)
          simp only at hdr
          rw [hdr]
          exact Nat.zero_le _
        · apply floodLoop_pair true net resource ttl (floodFuel net)
            _ _ _ (stInv_init _ _ start trivial c trivial)
          refine ⟨[], (List.append_nil _).symm, by simp, ?_, levelSplit_singleton _⟩
          intro e he
          simp only [List.mem_singleton] at he
          rw [he]
          exact hpos
  · unfold informed_flooding
    simp [hmem]

theorem flooding_messages_mono (net : Network) (start : Node) (resource : Resource)
    {ttl ttl' : Nat} (h : ttl ≤ ttl') :
    (flooding net start resource ttl).1.messages ≤
      (flooding net start resource ttl').1.messages := by
  induction ttl', h using Nat.le_induction with
  | base => exact Nat.le_refl _
  | succ m _ ih => exact Nat.le_trans ih (flooding_messages_mono_succ net start resource m)

theorem informed_flooding_messages_mono (net : Network) (start : Node) (resource : Resource)
    (c : Cache) {ttl ttl' : Nat} (h : ttl ≤ ttl') :
    (informed_flooding net start resource ttl (some c)).1.messages ≤
      (informed_flooding net start resource ttl' (some c)).1.messages := by
  induction ttl', h using Nat.le_induction with
  | base => exact Nat.le_refl _
  | succ m _ ih =>
    exact Nat.le_trans ih (informed_flooding_messages_mono_succ net start resource m c)

theorem flooding_nodes_le (net : Network) (start : Node) (resource : Resource) (ttl : Nat)
    (hval : net.validated) :
    (flooding net start resource ttl).1.nodes_visited ≤ net.num_nodes := by
  have hNN : net.num_nodes = net.getAllNodes.length := by
    rw [hval.2.1]
    unfold Network.getAllNodes
    simp
  by_cases hmem : start ∈ net.getAllNodes
  · by_cases hres : net.hasResource start resource = true
    · unfold flooding
      simp only [hmem, not_true_eq_false, if_false, reduceIte, hres, startHasResult]
      have hpos : 0 < net.getAllNodes.length :=
        List.length_pos.mpr (List.ne_nil_of_mem hmem)
      omega
    · rw [Bool.not_eq_true] at hres
      rw [flooding_eq_loop net start resource ttl hmem hres]
      have hinv := floodLoop_inv false net resource ttl (fun x => x ∈ net.getAllNodes)
        (fun _ => True) (fun v x hx => getNeighbors_subset_allNodes net hval v x hx)
        (fun _ _ _ _ _ => trivial) (fun _ _ _ _ _ => trivial)
        (floodFuel net)
        { cache := Cache.empty, visited := [start], messages := 0, nodes_visited := 1 }
        [(start, 0, [start])]
        (stInv_init _ _ start hmem Cache.empty trivial)
      have h1 := hinv.2.2.2.1
      have h2 := hinv.1.1
      have h3 := length_le_of_nodup_subset hinv.1.2.1 hinv.1.2.2.1
      simp only
      omega
  · unfold flooding
    simp [hmem, invalidStartResult]

theorem informed_flooding_nodes_le (net : Network) (start : Node) (resource : Resource)
    (ttl : Nat) (c : Cache) (hval : net.validated) :
    (informed_flooding net start resource ttl (some c)).1.nodes_visited ≤ net.num_nodes := by
  have hNN : net.num_nodes = net.getAllNodes.length := by
    rw [hval.2.1]
    unfold Network.getAllNodes
    simp
  by_cases hmem : start ∈ net.getAllNodes
  · have hpos : 0 < net.getAllNodes.length :=
      List.length_pos.mpr (List.ne_nil_of_mem hmem)
    by_cases hchas : c.has start resource = true
    · unfold informed_flooding
      simp only [hmem, not_true_eq_false, if_false, reduceIte, hchas, startHasResult]
      omega
    · rw [Bool.not_eq_true] at hchas
      by_cases hres : net.hasResource start resource = true
      · unfold informed_flooding
        simp only [hmem, not_true_eq_false, if_false, reduceIte, hchas, hres, startHasResult,
          Bool.false_eq_true]
        omega
      · rw [Bool.not_eq_true] at hres
        rw [informed_flooding_eq_loop net start resource ttl c hmem hchas hres]
        have hinv := floodLoop_inv true net resource ttl (fun x => x ∈ net.getAllNodes)
          (fun _ => True) (fun v x hx => getNeighbors_subset_allNodes net hval v x hx)
          (fun _ _ _ _ _ => trivial) (fun _ _ _ _ _ => trivial)
          (floodFuel net)
          { cache := c, visited := [start], messages := 0, nodes_visited := 1 }
          [(start, 0, [start])]
          (stInv_init _ _ start hmem c trivial)
        have h1 := hinv.2.2.2.1
        have h2 := hinv.1.1
        have h3 := length_le_of_nodup_subset hinv.1.2.1 hinv.1.2.2.1
        simp only
        omega
  · unfold informed_flooding
    simp [hmem, invalidStartResult]

/-- C4: for a validated network with fixed start, resource (and, informed,
fixed initial cache and the fixed neighbor enumeration order of the
embedding), messages are monotonically non-decreasing in the ttl, and
nodes_visited never exceeds the network's node count. -/
theorem C4_flood_metrics (net : Network) (start : Node) (resource : Resource)
    (ttl ttl' : Nat) (c : Cache) (hval : net.validated) (hle : ttl ≤ ttl') :
    ((flooding net start resource ttl).1.messages ≤
      (flooding net start resource ttl').1.messages) ∧
    ((informed_flooding net start resource ttl (some c)).1.messages ≤
      (informed_flooding net start resource ttl' (some c)).1.messages) ∧
    ((flooding net start resource ttl).1.nodes_visited ≤ net.num_nodes) ∧
    ((informed_flooding net start resource ttl (some c)).1.nodes_visited ≤ net.num_nodes) :=
  ⟨flooding_messages_mono net start resource hle,
   informed_flooding_messages_mono net start resource c hle,
   flooding_nodes_le net start resource ttl hval,
   informed_flooding_nodes_le net start resource ttl c hval⟩

/-- C4 witness on the validated ring with ttl 1 ≤ 3. -/
theorem C4_flood_metrics_witness :
    ((flooding ring4 "A" "y" 1).1.messages ≤ (flooding ring4 "A" "y" 3).1.messages) ∧
    ((informed_flooding ring4 "A" "y" 1 (some Cache.empty)).1.messages ≤
      (informed_flooding ring4 "A" "y" 3 (some Cache.empty)).1.messages) ∧
    ((flooding ring4 "A" "y" 1).1.nodes_visited ≤ ring4.num_nodes) ∧
    ((informed_flooding ring4 "A" "y" 1 (some Cache.empty)).1.nodes_visited ≤
      ring4.num_nodes) :=
  C4_flood_metrics ring4 "A" "y" 1 3 Cache.empty (by decide) (by decide)

theorem unvisitedCount_le_length (pl v : List Node) : unvisitedCount pl v ≤ pl.length :=
  List.length_filter_le _ pl

/-- Fuel faithfulness: once the fuel covers the loop's decreasing measure,
the result does not depend on it — so `floodLoop` with `floodFuel` computes
the source's unbounded `while queue:` loop. -/
theorem floodLoop_fuel_irrelevant (informed : Bool) (net : Network) (resource : Resource)
    (ttl : Nat) :
    ∀ fuel1 fuel2 st q,
      2 * unvisitedCount (nodePool net) st.visited + q.length ≤ fuel1 →
      2 * unvisitedCount (nodePool net) st.visited + q.length ≤ fuel2 →
      floodLoop informed net resource ttl fuel1 st q =
      floodLoop informed net resource ttl fuel2 st q := by
  intro fuel1
  induction fuel1 with
  | zero =>
    intro fuel2 st q h1 _
    have hq : q = [] := by
      cases q with
      | nil => rfl
      | cons e t => simp at h1
    subst hq
    cases fuel2 <;> simp [floodLoop]
  | succ fuel1 ih =>
    intro fuel2 st q h1 h2
    cases q with
    | nil => cases fuel2 <;> simp [floodLoop]
    | cons e rest =>
      obtain ⟨cur, depth, path⟩ := e
      cases fuel2 with
      | zero => simp at h2
      | succ fuel2 =>
        rw [floodLoop, floodLoop]
        by_cases hd : depth ≥ ttl
        · rw [if_pos hd, if_pos hd]
          apply ih fuel2 st rest ?_ ?_
          · simp only [List.length_cons] at h1
            omega
          · simp only [List.length_cons] at h2
            omega
        · rw [if_neg hd, if_neg hd]
          have hsub : ∀ n ∈ (if informed = true
                then cacheCandidates st.cache resource (net.getNeighbors cur)
                else net.getNeighbors cur), n ∈ nodePool net := by
            intro n hn
            apply getNeighbors_subset_pool net cur
            split at hn
            · exact List.mem_of_mem_filter hn
            · exact hn
          cases hpn : processNeighbors informed net resource depth path
              (if informed = true then cacheCandidates st.cache resource (net.getNeighbors cur)
               else net.getNeighbors cur) st with
          | inl p => rfl
          | inr p =>
            obtain ⟨st1, es⟩ := p
            have hm := processNeighbors_inr_measure informed net resource depth path
              (nodePool net) _ st st1 es hsub hpn
            have hlen : (if depth + 1 < ttl then es else []).length ≤ es.length := by
              split
              · exact Nat.le_refl _
              · exact Nat.zero_le _
            apply ih fuel2 st1 (rest ++ if depth + 1 < ttl then es else []) ?_ ?_
            · simp only [List.length_cons] at h1
              rw [List.length_append]
              omega
            · simp only [List.length_cons] at h2
              rw [List.length_append]
              omega

/-- The fuel the entry points pass always covers the initial measure. -/
theorem floodFuel_suffices (net : Network) (start : Node) :
    2 * unvisitedCount (nodePool net) [start] + 1 ≤ floodFuel net := by
  have h := unvisitedCount_le_length (nodePool net) [start]
  unfold floodFuel
  omega

end P2PSim
